import Mathlib

/-!
Verification development for the mezzotint keep-set pipeline
(`src/procdata.rs`, `src/filters/resources.rs`, `src/scanner/dlst.rs`).

Paths follow Rust `PathBuf` semantics: a component list plus an
absoluteness flag, compared component-wise (no collapsing of dot-dot
components).  The `utf8` flag records whether `Path::to_str` would
succeed on the path (`false` models a path that is not valid UTF-8).
-/

structure RPath where
  abs : Bool
  comps : List String
  utf8 : Bool := true
deriving DecidableEq, Repr

/-- PathBuf::join / push: an absolute argument replaces the whole path, a
relative argument is appended without any normalisation.  Used at
procdata.rs:132 to resolve a link target against the symlink's parent. -/
def RPath.join (a b : RPath) : RPath :=
  if b.abs then b else ⟨a.abs, a.comps ++ b.comps, a.utf8 && b.utf8⟩

/-- Path::parent followed by the unwrap at procdata.rs:132: drop the final
component.  Rust returns None only for a root or empty path; such a path is
never a symlink (the confined root is a directory), so the model totalises
the operation. -/
def RPath.parentD (p : RPath) : RPath := ⟨p.abs, p.comps.dropLast, p.utf8⟩

/-- The resolved target of the symlink `tgt` whose link value is `l`
(procdata.rs:131-132): `tgt.parent().unwrap().join(read_link(tgt))`. -/
def resolveTgt (tgt l : RPath) : RPath := (RPath.parentD tgt).join l

/-- The set of resolved link targets of the symlink members of a path list,
where `f` is the read-link view of the filesystem (`f t = some l` iff `t`
is a symlink with raw target `l`). -/
def targetsOf (f : RPath → Option RPath) : List RPath → Finset RPath
  | [] => ∅
  | t :: rest =>
    match f t with
    | some l => insert (resolveTgt t l) (targetsOf f rest)
    | none => targetsOf f rest

theorem targetsOf_append (f : RPath → Option RPath) (a b : List RPath) :
    targetsOf f (a ++ b) = targetsOf f a ∪ targetsOf f b := by
  induction a with
  | nil => simp [targetsOf]
  | cons t rest ih =>
    simp only [List.cons_append, targetsOf]
    cases f t with
    | none => exact ih
    | some l => simp [ih, Finset.insert_union]

theorem mem_targetsOf {f : RPath → Option RPath} {l : List RPath} {t tg : RPath}
    (ht : t ∈ l) (hf : f t = some tg) : resolveTgt t tg ∈ targetsOf f l := by
  induction l with
  | nil => cases ht
  | cons x rest ih =>
    rcases List.mem_cons.mp ht with h | h
    · subst h
      simp [targetsOf, hf]
    · simp only [targetsOf]
      cases hx : f x with
      | none => exact ih h
      | some lx => exact Finset.mem_insert_of_mem (ih h)

theorem targetsOf_subset_of_sub {f : RPath → Option RPath} {l orig : List RPath}
    (hsub : ∀ x ∈ l, x ∈ orig) : targetsOf f l ⊆ targetsOf f orig := by
  induction l with
  | nil => simp [targetsOf]
  | cons t rest ih =>
    simp only [targetsOf]
    have ht : t ∈ orig := hsub t (List.mem_cons_self _ _)
    have hrest : ∀ x ∈ rest, x ∈ orig := fun x hx => hsub x (List.mem_cons_of_mem _ hx)
    cases hf : f t with
    | none => exact ih hrest
    | some tg =>
      exact Finset.insert_subset (mem_targetsOf ht hf) (ih hrest)

theorem card_sdiff_lt_aux {f : RPath → Option RPath} {orig rest : List RPath}
    {t r : RPath} {np B S : Finset RPath}
    (hS : S ⊆ targetsOf f (orig ++ t :: rest)) (hB : insert r np ⊆ B)
    (hr : r ∈ targetsOf f (orig ++ t :: rest)) (hrnp : r ∉ np) :
    (S \ B).card < (targetsOf f (orig ++ t :: rest) \ np).card := by
  apply Finset.card_lt_card
  constructor
  · intro x hx
    rw [Finset.mem_sdiff] at hx ⊢
    refine ⟨hS hx.1, fun hxnp => hx.2 (hB (Finset.mem_insert_of_mem hxnp))⟩
  · intro hsub
    have hmem : r ∈ targetsOf f (orig ++ t :: rest) \ np :=
      Finset.mem_sdiff.mpr ⟨hr, hrnp⟩
    have := hsub hmem
    rw [Finset.mem_sdiff] at this
    exact this.2 (hB (Finset.mem_insert_self _ _))

/-- TintProcessor::ext_path (procdata.rs:128-142).  `f` is the read-link
view of the filesystem.  The Rust function iterates the original set `p`
(modelled by the scan list, initially `orig`), and on discovering a target
absent from the accumulator `np` inserts it and recurses over the full
original set.  `HashSet::extend` of the recursive result is the union. -/
def ext_path (f : RPath → Option RPath) (orig : List RPath) :
    List RPath → Finset RPath → Finset RPath
  | [], np => np
  | t :: rest, np =>
    match hf : f t with
    | none => ext_path f orig rest np
    | some l =>
      let r := resolveTgt t l
      if r ∈ np then ext_path f orig rest np
      else ext_path f orig rest (insert r np ∪ ext_path f orig orig (insert r np))
termination_by l np => ((targetsOf f (orig ++ l) \ np).card, l.length)
decreasing_by
  · apply Prod.Lex.right'
    · apply Finset.card_le_card
      rw [targetsOf_append, targetsOf_append]
      exact Finset.sdiff_subset_sdiff
        (Finset.union_subset_union_right (targetsOf_subset_of_sub
          (fun x hx => List.mem_cons_of_mem _ hx))) (le_refl _)
    · simp
  · apply Prod.Lex.right'
    · apply Finset.card_le_card
      rw [targetsOf_append, targetsOf_append]
      exact Finset.sdiff_subset_sdiff
        (Finset.union_subset_union_right (targetsOf_subset_of_sub
          (fun x hx => List.mem_cons_of_mem _ hx))) (le_refl _)
    · simp
  · apply Prod.Lex.left
    refine card_sdiff_lt_aux ?_ (le_refl _) ?_ (by assumption)
    · rw [targetsOf_append, targetsOf_append]
      exact Finset.union_subset Finset.subset_union_left Finset.subset_union_left
    · exact mem_targetsOf (List.mem_append_right _ (List.mem_cons_self _ _)) hf
  · apply Prod.Lex.left
    refine card_sdiff_lt_aux ?_ Finset.subset_union_left ?_ (by assumption)
    · rw [targetsOf_append, targetsOf_append]
      exact Finset.union_subset_union_right (targetsOf_subset_of_sub
        (fun x hx => List.mem_cons_of_mem _ hx))
    · exact mem_targetsOf (List.mem_append_right _ (List.mem_cons_self _ _)) hf


theorem targetsOf_cons_none {f : RPath → Option RPath} {t : RPath}
    {rest : List RPath} (hft : f t = none) :
    targetsOf f (t :: rest) = targetsOf f rest := by
  simp [targetsOf, hft]

theorem targetsOf_cons_some {f : RPath → Option RPath} {t lk : RPath}
    {rest : List RPath} (hft : f t = some lk) :
    targetsOf f (t :: rest) = insert (resolveTgt t lk) (targetsOf f rest) := by
  simp [targetsOf, hft]

@[simp] theorem ext_path_nil (f : RPath → Option RPath) (orig : List RPath)
    (np : Finset RPath) : ext_path f orig [] np = np := by
  rw [ext_path]

theorem ext_path_cons_none {f : RPath → Option RPath} {orig : List RPath}
    {t : RPath} {rest : List RPath} {np : Finset RPath} (hft : f t = none) :
    ext_path f orig (t :: rest) np = ext_path f orig rest np := by
  conv_lhs => rw [ext_path]
  split
  · rfl
  · simp_all

theorem ext_path_cons_some {f : RPath → Option RPath} {orig : List RPath}
    {t lk : RPath} {rest : List RPath} {np : Finset RPath} (hft : f t = some lk) :
    ext_path f orig (t :: rest) np =
      if resolveTgt t lk ∈ np then ext_path f orig rest np
      else ext_path f orig rest
        (insert (resolveTgt t lk) np ∪ ext_path f orig orig (insert (resolveTgt t lk) np)) := by
  conv_lhs => rw [ext_path]
  split
  · simp_all
  · rename_i l heq
    rw [hft] at heq
    cases heq
    rfl

theorem ext_path_bounds (f : RPath → Option RPath) (orig : List RPath) :
    ∀ n (np : Finset RPath), (targetsOf f orig \ np).card ≤ n →
    ∀ l, (∀ x ∈ l, x ∈ orig) →
      (np ∪ targetsOf f l ⊆ ext_path f orig l np ∧
       ext_path f orig l np ⊆ np ∪ targetsOf f orig) := by
  intro n
  induction n with
  | zero =>
    intro np hcard l hsub
    induction l with
    | nil => simp [targetsOf]
    | cons t rest ih =>
      have hrest : ∀ x ∈ rest, x ∈ orig := fun x hx => hsub x (List.mem_cons_of_mem _ hx)
      have ht : t ∈ orig := hsub t (List.mem_cons_self _ _)
      cases hft : f t with
      | none =>
        rw [ext_path_cons_none hft, targetsOf_cons_none hft]
        exact ih hrest
      | some lk =>
        by_cases hmem : resolveTgt t lk ∈ np
        · rw [ext_path_cons_some hft, if_pos hmem, targetsOf_cons_some hft]
          refine ⟨?_, (ih hrest).2⟩
          refine Finset.union_subset ?_ (Finset.insert_subset ?_ ?_)
          · exact subset_trans Finset.subset_union_left (ih hrest).1
          · exact (ih hrest).1 (Finset.mem_union_left _ hmem)
          · exact subset_trans Finset.subset_union_right (ih hrest).1
        · exfalso
          have hin : resolveTgt t lk ∈ targetsOf f orig \ np :=
            Finset.mem_sdiff.mpr ⟨mem_targetsOf ht hft, hmem⟩
          have hpos : 0 < (targetsOf f orig \ np).card :=
            Finset.card_pos.mpr ⟨_, hin⟩
          omega
  | succ n ihn =>
    intro np hcard l hsub
    induction l with
    | nil => simp [targetsOf]
    | cons t rest ih =>
      have hrest : ∀ x ∈ rest, x ∈ orig := fun x hx => hsub x (List.mem_cons_of_mem _ hx)
      have ht : t ∈ orig := hsub t (List.mem_cons_self _ _)
      cases hft : f t with
      | none =>
        rw [ext_path_cons_none hft, targetsOf_cons_none hft]
        exact ih hrest
      | some lk =>
        by_cases hmem : resolveTgt t lk ∈ np
        · rw [ext_path_cons_some hft, if_pos hmem, targetsOf_cons_some hft]
          refine ⟨?_, (ih hrest).2⟩
          refine Finset.union_subset ?_ (Finset.insert_subset ?_ ?_)
          · exact subset_trans Finset.subset_union_left (ih hrest).1
          · exact (ih hrest).1 (Finset.mem_union_left _ hmem)
          · exact subset_trans Finset.subset_union_right (ih hrest).1
        · rw [ext_path_cons_some hft, if_neg hmem, targetsOf_cons_some hft]
          set r := resolveTgt t lk with hr
          have hrT : r ∈ targetsOf f orig := mem_targetsOf ht hft
          have hsmall : (targetsOf f orig \ insert r np).card ≤ n := by
            have hlt : (targetsOf f orig \ insert r np).card <
                (targetsOf f orig \ np).card := by
              apply Finset.card_lt_card
              constructor
              · exact Finset.sdiff_subset_sdiff (le_refl _) (Finset.subset_insert _ _)
              · intro hsub2
                have hin : r ∈ targetsOf f orig \ np := Finset.mem_sdiff.mpr ⟨hrT, hmem⟩
                have := hsub2 hin
                rw [Finset.mem_sdiff] at this
                exact this.2 (Finset.mem_insert_self _ _)
            omega
          have hinner := ihn (insert r np) hsmall orig (fun x hx => hx)
          set X := ext_path f orig orig (insert r np) with hX
          have hsmall2 : (targetsOf f orig \ (insert r np ∪ X)).card ≤ n :=
            le_trans (Finset.card_le_card
              (Finset.sdiff_subset_sdiff (le_refl _) Finset.subset_union_left)) hsmall
          have houter := ihn (insert r np ∪ X) hsmall2 rest hrest
          constructor
          · intro x hx
            rcases Finset.mem_union.mp hx with hx | hx
            · exact houter.1 (Finset.mem_union_left _
                (Finset.mem_union_left _ (Finset.mem_insert_of_mem hx)))
            · rcases Finset.mem_insert.mp hx with hx | hx
              · subst hx
                exact houter.1 (Finset.mem_union_left _
                  (Finset.mem_union_left _ (Finset.mem_insert_self _ _)))
              · exact houter.1 (Finset.mem_union_right _ hx)
          · intro x hx
            have hx2 := houter.2 hx
            rcases Finset.mem_union.mp hx2 with hx2 | hx2
            · rcases Finset.mem_union.mp hx2 with hx3 | hx3
              · rcases Finset.mem_insert.mp hx3 with hx4 | hx4
                · subst hx4
                  exact Finset.mem_union_right _ hrT
                · exact Finset.mem_union_left _ hx4
              · have hx4 := hinner.2 hx3
                rcases Finset.mem_union.mp hx4 with hx5 | hx5
                · rcases Finset.mem_insert.mp hx5 with hx6 | hx6
                  · subst hx6
                    exact Finset.mem_union_right _ hrT
                  · exact Finset.mem_union_left _ hx6
                · exact Finset.mem_union_right _ hx5
            · exact Finset.mem_union_right _ hx2

/-- The semantic characterisation of ext_path used throughout: one pass of
the closure adds exactly the resolved targets of the symlink members of
the original scan list, independent of the accumulator's prior content. -/
theorem ext_path_closure (f : RPath → Option RPath) (orig : List RPath)
    (np : Finset RPath) :
    ext_path f orig orig np = np ∪ targetsOf f orig := by
  have h := ext_path_bounds f orig (targetsOf f orig \ np).card np (le_refl _)
    orig (fun x hx => hx)
  exact le_antisymm h.2 h.1

/-- Recursion-depth instrumented variant of ext_path: `fuel` bounds the
depth of self-calls of the form ext_path(p, np) (procdata.rs:136); `none`
means the depth budget would be exceeded.  Used to state that the
recursion depth of the source function is bounded by the number of
distinct resolved symlink targets of the original input. -/
def ext_path_fuel (f : RPath → Option RPath) (orig : List RPath) :
    Nat → List RPath → Finset RPath → Option (Finset RPath)
  | _, [], np => some np
  | fuel, t :: rest, np =>
    match f t with
    | none => ext_path_fuel f orig fuel rest np
    | some l =>
      let r := resolveTgt t l
      if r ∈ np then ext_path_fuel f orig fuel rest np
      else
        match fuel with
        | 0 => none
        | m + 1 =>
          (ext_path_fuel f orig m orig (insert r np)).bind
            (fun x => ext_path_fuel f orig (m + 1) rest (insert r np ∪ x))
termination_by fuel l np => (fuel, l.length)
decreasing_by
  all_goals first
    | (apply Prod.Lex.right; simp)
    | (apply Prod.Lex.left; omega)

@[simp] theorem ext_path_fuel_nil (f : RPath → Option RPath) (orig : List RPath)
    (fuel : Nat) (np : Finset RPath) :
    ext_path_fuel f orig fuel [] np = some np := by
  rw [ext_path_fuel.eq_def]

theorem ext_path_fuel_cons_none {f : RPath → Option RPath} {orig : List RPath}
    {t : RPath} {rest : List RPath} {fuel : Nat} {np : Finset RPath}
    (hft : f t = none) :
    ext_path_fuel f orig fuel (t :: rest) np = ext_path_fuel f orig fuel rest np := by
  conv_lhs => rw [ext_path_fuel.eq_def]
  simp [hft]

theorem ext_path_fuel_cons_mem {f : RPath → Option RPath} {orig : List RPath}
    {t lk : RPath} {rest : List RPath} {fuel : Nat} {np : Finset RPath}
    (hft : f t = some lk) (hmem : resolveTgt t lk ∈ np) :
    ext_path_fuel f orig fuel (t :: rest) np = ext_path_fuel f orig fuel rest np := by
  conv_lhs => rw [ext_path_fuel.eq_def]
  simp [hft, hmem]

theorem ext_path_fuel_cons_zero {f : RPath → Option RPath} {orig : List RPath}
    {t lk : RPath} {rest : List RPath} {np : Finset RPath}
    (hft : f t = some lk) (hmem : resolveTgt t lk ∉ np) :
    ext_path_fuel f orig 0 (t :: rest) np = none := by
  conv_lhs => rw [ext_path_fuel.eq_def]
  simp [hft, hmem]

theorem ext_path_fuel_cons_grow {f : RPath → Option RPath} {orig : List RPath}
    {t lk : RPath} {rest : List RPath} {m : Nat} {np : Finset RPath}
    (hft : f t = some lk) (hmem : resolveTgt t lk ∉ np) :
    ext_path_fuel f orig (m + 1) (t :: rest) np =
      (ext_path_fuel f orig m orig (insert (resolveTgt t lk) np)).bind
        (fun x => ext_path_fuel f orig (m + 1) rest (insert (resolveTgt t lk) np ∪ x)) := by
  conv_lhs => rw [ext_path_fuel.eq_def]
  simp [hft, hmem]

theorem ext_path_fuel_spec (f : RPath → Option RPath) (orig : List RPath) :
    ∀ n (np : Finset RPath), (targetsOf f orig \ np).card ≤ n →
    ∀ fuel, n ≤ fuel → ∀ l, (∀ x ∈ l, x ∈ orig) →
      ext_path_fuel f orig fuel l np = some (ext_path f orig l np) := by
  intro n
  induction n with
  | zero =>
    intro np hcard fuel hfuel l hsub
    induction l with
    | nil => simp
    | cons t rest ih =>
      have hrest : ∀ x ∈ rest, x ∈ orig := fun x hx => hsub x (List.mem_cons_of_mem _ hx)
      have ht : t ∈ orig := hsub t (List.mem_cons_self _ _)
      cases hft : f t with
      | none =>
        rw [ext_path_fuel_cons_none hft, ext_path_cons_none hft]
        exact ih hrest
      | some lk =>
        by_cases hmem : resolveTgt t lk ∈ np
        · rw [ext_path_fuel_cons_mem hft hmem, ext_path_cons_some hft, if_pos hmem]
          exact ih hrest
        · exfalso
          have hin : resolveTgt t lk ∈ targetsOf f orig \ np :=
            Finset.mem_sdiff.mpr ⟨mem_targetsOf ht hft, hmem⟩
          have hpos : 0 < (targetsOf f orig \ np).card :=
            Finset.card_pos.mpr ⟨_, hin⟩
          omega
  | succ n ihn =>
    intro np hcard fuel hfuel l hsub
    induction l with
    | nil => simp
    | cons t rest ih =>
      have hrest : ∀ x ∈ rest, x ∈ orig := fun x hx => hsub x (List.mem_cons_of_mem _ hx)
      have ht : t ∈ orig := hsub t (List.mem_cons_self _ _)
      cases hft : f t with
      | none =>
        rw [ext_path_fuel_cons_none hft, ext_path_cons_none hft]
        exact ih hrest
      | some lk =>
        by_cases hmem : resolveTgt t lk ∈ np
        · rw [ext_path_fuel_cons_mem hft hmem, ext_path_cons_some hft, if_pos hmem]
          exact ih hrest
        · obtain ⟨m, rfl⟩ : ∃ m, fuel = m + 1 := by
            cases fuel with
            | zero => omega
            | succ m => exact ⟨m, rfl⟩
          rw [ext_path_fuel_cons_grow hft hmem, ext_path_cons_some hft, if_neg hmem]
          set r := resolveTgt t lk with hr
          have hrT : r ∈ targetsOf f orig := mem_targetsOf ht hft
          have hsmall : (targetsOf f orig \ insert r np).card ≤ n := by
            have hlt : (targetsOf f orig \ insert r np).card <
                (targetsOf f orig \ np).card := by
              apply Finset.card_lt_card
              constructor
              · exact Finset.sdiff_subset_sdiff (le_refl _) (Finset.subset_insert _ _)
              · intro hsub2
                have hin : r ∈ targetsOf f orig \ np := Finset.mem_sdiff.mpr ⟨hrT, hmem⟩
                have := hsub2 hin
                rw [Finset.mem_sdiff] at this
                exact this.2 (Finset.mem_insert_self _ _)
            omega
          have hinner := ihn (insert r np) hsmall m (by omega) orig (fun x hx => hx)
          rw [hinner]
          simp only [Option.some_bind]
          set X := ext_path f orig orig (insert r np) with hX
          have hsmall2 : (targetsOf f orig \ (insert r np ∪ X)).card ≤ n :=
            le_trans (Finset.card_le_card
              (Finset.sdiff_subset_sdiff (le_refl _) Finset.subset_union_left)) hsmall
          exact ihn (insert r np ∪ X) hsmall2 (m + 1) (by omega) rest hrest

/-- The number of distinct resolved targets is bounded by the number of
symlink members of the input list. -/
theorem targetsOf_card_le (f : RPath → Option RPath) (l : List RPath) :
    (targetsOf f l).card ≤ l.countP (fun t => (f t).isSome) := by
  induction l with
  | nil => simp [targetsOf, List.countP_nil]
  | cons t rest ih =>
    cases hft : f t with
    | none =>
      rw [targetsOf_cons_none hft]
      rw [List.countP_cons_of_neg _ _ (by simp [hft])]
      exact ih
    | some lk =>
      rw [targetsOf_cons_some hft]
      rw [List.countP_cons_of_pos _ _ (by simp [hft])]

      exact le_trans (Finset.card_insert_le _ _) (by omega)

/-- Error/abort outcomes of the embedded functions.  `unwrapFail` models a
Rust unwrap (or index) abort, `ioFail` a propagated io::Error, and
`extFail` an error produced by an external collaborator. -/
inductive RErr where
  | alreadyTinted
  | ioFail
  | unwrapFail
  | extFail (msg : String)
deriving DecidableEq, Repr

/-- The profile interface consumed by the orchestrator (external
collaborator; see spec section 6): target executables, declared packages,
explicit keep/prune paths and the two resource-filter toggles. -/
structure Profile where
  targets : List RPath
  packages : List String
  keepPaths : List RPath
  prunePaths : List RPath
  filterArc : Bool
  filterImg : Bool
deriving Repr

/-- Rendering of a path as Path::to_str would produce it (used only for
suffix matching, so a plain slash-join suffices). -/
def RPath.render (p : RPath) : String :=
  (if p.abs then "/" else "") ++ String.intercalate "/" p.comps

/-- Path::to_str: `none` iff the path is not valid UTF-8. -/
def RPath.toStr (p : RPath) : Option String :=
  if p.utf8 then some p.render else none

/-- Modelled from the spec: the static archive-suffix table lives in
filters/defs.rs, which is not under src/; representative entries follow
the spec's examples (section 4.2 and section 8). -/
def ARC_F_EXT : List String :=
  [".tar.gz", ".tar.xz", ".tar.bz2", ".tgz", ".zip", ".gz", ".bz2", ".xz"]

/-- Modelled from the spec: the static image-suffix table lives in
filters/defs.rs, which is not under src/; representative entries follow
the spec's examples (section 4.2 and section 8). -/
def IMG_F_EXT : List String :=
  [".png", ".jpg", ".jpeg", ".gif", ".svg", ".xpm", ".bmp", ".ico"]

/-- ResourcesDataFilter (resources.rs:10-14): candidate list captured at
construction time plus the two toggles. -/
structure ResourcesDataFilter where
  data : List RPath
  remove_archives : Bool
  remove_images : Bool
deriving Repr

/-- ResourcesDataFilter::new (resources.rs:17-30). -/
def ResourcesDataFilter.new (data : List RPath) (profile : Profile) :
    ResourcesDataFilter :=
  { data := data, remove_archives := profile.filterArc,
    remove_images := profile.filterImg }

/-- ResourcesDataFilter::filter_archives (resources.rs:33-47).  The toggle
is consulted before `p.to_str().unwrap()`, so a non-UTF-8 path aborts
(unwrap) only when the archive toggle is enabled. -/
def ResourcesDataFilter.filter_archives (rdf : ResourcesDataFilter)
    (p : RPath) : Except RErr Bool :=
  if !rdf.remove_archives then .ok false
  else
    match p.toStr with
    | none => .error .unwrapFail
    | some s => .ok (ARC_F_EXT.any (fun e => s.endsWith e))

/-- ResourcesDataFilter::filter_images (resources.rs:50-63). -/
def ResourcesDataFilter.filter_images (rdf : ResourcesDataFilter)
    (p : RPath) : Except RErr Bool :=
  if !rdf.remove_images then .ok false
  else
    match p.toStr with
    | none => .error .unwrapFail
    | some s => .ok (IMG_F_EXT.any (fun e => s.endsWith e))

/-- The loop body of DataFilter::filter for ResourcesDataFilter
(resources.rs:67-75): iterate the construction-time candidates, keep a
candidate unless filter_archives or filter_images matches; `||` is
short-circuiting, so filter_images runs only when filter_archives
returned false. -/
def ResourcesDataFilter.filterList (rdf : ResourcesDataFilter) :
    List RPath → Except RErr (List RPath)
  | [] => .ok []
  | p :: rest =>
    match rdf.filter_archives p with
    | .error e => .error e
    | .ok true => rdf.filterList rest
    | .ok false =>
      match rdf.filter_images p with
      | .error e => .error e
      | .ok true => rdf.filterList rest
      | .ok false =>
        match rdf.filterList rest with
        | .error e => .error e
        | .ok out => .ok (p :: out)

/-- DataFilter::filter for ResourcesDataFilter (resources.rs:66-79).  The
working set passed by reference is cleared and replaced by the retained
candidates (clear-then-extend), so the argument set's prior content is
discarded entirely. -/
def ResourcesDataFilter.filter (rdf : ResourcesDataFilter)
    (s : Finset RPath) : Except RErr (Finset RPath) :=
  match rdf.filterList rdf.data with
  | .error e => .error e
  | .ok out => .ok out.toFinset

/-- The explicit-overrides stage (procdata.rs:183-191): union in the
profile's keep paths, then remove every prune path. -/
def applyOverrides (keep prune : List RPath) (s : Finset RPath) : Finset RPath :=
  prune.foldl (fun acc p => acc.erase p) (s ∪ keep.toFinset)

/-- In-memory model of the confined root filesystem: regular files,
symlinks (with their raw target), and directories with named entries. -/
inductive Node where
  | file
  | link (target : RPath)
  | dir (entries : List (String × Node))
deriving Repr

/-- First entry with the given name (directory listing lookup). -/
def findE (c : String) : List (String × Node) → Option Node
  | [] => none
  | (k, n) :: rest => if k = c then some n else findE c rest

/-- Remove the first entry with the given name. -/
def eraseE (c : String) : List (String × Node) → List (String × Node)
  | [] => []
  | (k, n) :: rest => if k = c then rest else (k, n) :: eraseE c rest

/-- Replace the first entry with the given name. -/
def updateE (c : String) (nw : Node) : List (String × Node) → List (String × Node)
  | [] => []
  | (k, n) :: rest => if k = c then (k, nw) :: rest else (k, n) :: updateE c nw rest

/-- Replace the first entry with the given name, or append it. -/
def upsertE (c : String) (nw : Node) : List (String × Node) → List (String × Node)
  | [] => [(c, nw)]
  | (k, n) :: rest => if k = c then (k, nw) :: rest else (k, n) :: upsertE c nw rest

/-- Walk a component list down the tree without resolving symlinks
(lstat-style structural lookup). -/
def Node.lookup : List String → Node → Option Node
  | [], n => some n
  | c :: cs, .dir es =>
    match findE c es with
    | some n => Node.lookup cs n
    | none => none
  | _ :: _, _ => none

/-- Lexical normalisation of dot and dot-dot components as the kernel
resolves them against real directories (dot-dot at the root stays at the
root).  Applied before structural lookup; note that RPath equality in the
keep set stays unnormalised, matching PathBuf equality. -/
def normComps (cs : List String) : List String :=
  cs.foldl (fun acc c =>
    if c = "." then acc else if c = ".." then acc.dropLast else acc ++ [c]) []

/-- Resolve a path following a chain of symlinks at the final component,
with an ELOOP-style depth budget, as stat/metadata do.  `none` models an
io::Error (missing entry or too many links). -/
def stat (w : Node) : Nat → List String → Option Node
  | 0, _ => none
  | fuel + 1, cs =>
    let n := normComps cs
    match Node.lookup n w with
    | some (.link t) => stat w fuel (if t.abs then t.comps else n.dropLast ++ t.comps)
    | some other => some other
    | none => none

/-- The read-link view of the world used by ext_path: `some target` iff
the path names a symlink (Path::is_symlink plus fs::read_link). -/
def readLinkW (w : Node) (p : RPath) : Option RPath :=
  match Node.lookup (normComps p.comps) w with
  | some (.link t) => some t
  | _ => none

/-- Fixed completion-marker name: TintProcessor::new sets the lockfile to
"/.tinted.lock" (procdata.rs:40). -/
def lockName : String := ".tinted.lock"

/-- Path::exists for the lockfile (procdata.rs:148): metadata-style,
following symlinks. -/
def lockExists (w : Node) : Bool :=
  (stat w 40 [lockName]).isSome

/-- Removal of the entry at a path, parameterised by the check the
syscall performs on the entry kind (`can`); `none` is failure (missing
entry, wrong kind).  Shared skeleton of unlink and rmdir. -/
def removeEntry (can : Node → Bool) : List String → Node → Option Node
  | [c], .dir es =>
    match findE c es with
    | some n => if can n then some (.dir (eraseE c es)) else none
    | none => none
  | c :: cs, .dir es =>
    match findE c es with
    | some sub =>
      match removeEntry can cs sub with
      | some s => some (.dir (updateE c s es))
      | none => none
    | none => none
  | _, _ => none

/-- fs::remove_file: fails on a missing path, on a directory, or when the
failure oracle `denied` vetoes the path (permission error etc.). -/
def remove_file (denied : List String → Bool) (w : Node) (cs : List String) :
    Option Node :=
  if denied cs then none
  else removeEntry (fun n => match n with | .dir _ => false | _ => true)
    (normComps cs) w

/-- fs::remove_dir: fails on a missing path, a non-directory, a non-empty
directory, or when the failure oracle vetoes the path. -/
def remove_dir (denied : List String → Bool) (w : Node) (cs : List String) :
    Option Node :=
  if denied cs then none
  else removeEntry (fun n => match n with | .dir [] => true | _ => false)
    (normComps cs) w

/-- The deletion loop of apply_changes (procdata.rs:116-120): attempt each
removal and continue regardless of failure (the Err branch only logs). -/
def delPhase (denied : List String → Bool) (w : Node) (ps : List RPath) : Node :=
  ps.foldl (fun w p =>
    match remove_file denied w p.comps with
    | some w2 => w2
    | none => w) w

/-- The broken-symlink test at procdata.rs:79: the entry is a symlink
(lstat) and canonicalize fails (missing target somewhere along the chain,
or an ELOOP cycle). -/
def brokenLink (w : Node) (cs : List String) : Bool :=
  (match Node.lookup (normComps cs) w with
   | some (.link _) => true
   | _ => false)
  && (stat w 40 cs).isNone

mutual
/-- TintProcessor::remove_broken_symlinks (procdata.rs:77-88).  `skel` is
the directory listing collected by read_dir when the call starts (the
source collects entries into a Vec first); `w` is the live world threaded
through the sequential removals, so each brokenness test sees earlier
removals.  Removal failures are discarded (`let _ = remove_file`).  The
source recurses via `e.path().is_dir()`, which follows directory
symlinks; since the sweep is rooted at "/", every real directory is
reached structurally, so the model recurses into directory entries (a
directory-symlink cycle would not terminate in the source at all). -/
def remove_broken_symlinks (denied : List String → Bool) (skel : Node)
    (cur : List String) (w : Node) : Node :=
  match skel with
  | .dir es => rbsEntries denied es cur w
  | _ => w

/-- Entry loop of remove_broken_symlinks. -/
def rbsEntries (denied : List String → Bool) (es : List (String × Node))
    (cur : List String) (w : Node) : Node :=
  match es with
  | [] => w
  | (name, child) :: rest =>
    let e := cur ++ [name]
    let w1 := if brokenLink w e then
        match remove_file denied w e with
        | some w2 => w2
        | none => w
      else w
    let w2 := match Node.lookup (normComps e) w1 with
      | some (.dir _) => remove_broken_symlinks denied child e w1
      | _ => w1
    rbsEntries denied rest cur w2
end

mutual
/-- TintProcessor::remove_empty_dirs (procdata.rs:91-112).  `skel` is the
live listing at `cur` when read_dir runs; `w` is the whole live world.
Returns the post-sweep world and the "empty" flag (which tracks only
subdirectory emptiness: file entries never clear it, exactly as in the
source, whose loop only inspects `meta.is_dir()` entries).  When called
on a non-directory the read_dir unwrap aborts, modelled as an error. -/
def remove_empty_dirs (denied : List String → Bool) (skel : Node)
    (cur : List String) (w : Node) : Except RErr (Node × Bool) :=
  match skel with
  | .dir es =>
    match redEntries denied es cur w with
    | .error e => .error e
    | .ok (w2, empty) =>
      let snap := (Node.lookup (normComps cur) w2).getD (.dir [])
      .ok (remove_broken_symlinks denied snap cur w2, empty)
  | _ => .error .unwrapFail

/-- Entry loop of remove_empty_dirs: recurse into subdirectory entries; a
recursively "empty" subdirectory is removed best-effort (`let _ =
fs::remove_dir`, which itself fails on a directory that still holds
files); a non-empty one clears the flag. -/
def redEntries (denied : List String → Bool) (es : List (String × Node))
    (cur : List String) (w : Node) : Except RErr (Node × Bool) :=
  match es with
  | [] => .ok (w, true)
  | (name, child) :: rest =>
    let e := cur ++ [name]
    match child with
    | .dir _ =>
      match remove_empty_dirs denied child e w with
      | .error err => .error err
      | .ok (w1, subEmpty) =>
        if subEmpty then
          let w2 := match remove_dir denied w1 e with
            | some x => x
            | none => w1
          redEntries denied rest cur w2
        else
          match redEntries denied rest cur w1 with
          | .error err => .error err
          | .ok (w2, _) => .ok (w2, false)
    | _ => redEntries denied rest cur w
end

/-- TintProcessor::apply_changes (procdata.rs:115-126): best-effort
deletion of every path in the removal set, the post-delete sweep rooted
at "/", then creation of the empty completion marker; only the sweep's
(unreachable) abort and the marker creation can fail.  `createOk` is the
File::create failure oracle; creation in a non-directory root fails. -/
def apply_changes (denied : List String → Bool) (createOk : Bool) (w : Node)
    (ps : List RPath) : Except RErr Unit × Node :=
  let w1 := delPhase denied w ps
  match remove_empty_dirs denied w1 [] w1 with
  | .error e => (.error e, w1)
  | .ok (w2, _) =>
    match w2 with
    | .dir es =>
      if createOk then (.ok (), .dir (upsertE lockName .file es))
      else (.error .ioFail, w2)
    | _ => (.error .ioFail, w2)

/-- One iteration of ContentFormatter::format's loop (dlst.rs:28-62),
keeping exactly the operations that can abort: the metadata unwrap at
line 29, the parent/file_name/to_str unwraps inside dn (lines 91-93, a
path with no components, a non-UTF-8 path, or a trailing dot-dot
component), the look-ahead `fs_data[pi+1].parent().unwrap().to_str().
unwrap()` at line 39 (evaluated only when `pi < d_len`, short-circuit),
and the read_link target to_str unwrap at line 49 for symlink entries.
Printing itself is elided. -/
def fmtStep (w : Node) (l : List RPath) (dlen : Nat) (idx : Nat) (p : RPath) :
    Except RErr Unit :=
  match stat w 40 p.comps with
  | none => .error .unwrapFail
  | some _ =>
    if p.comps.isEmpty || !p.utf8 || p.comps.getLast? == some ".." then
      .error .unwrapFail
    else if idx < dlen &&
        !(match l[idx + 1]? with
          | some q => !q.comps.isEmpty && q.utf8
          | none => true) then
      .error .unwrapFail
    else
      match Node.lookup (normComps p.comps) w with
      | some (.link t) => if t.utf8 then .ok () else .error .unwrapFail
      | _ => .ok ()

/-- Enumerated loop of ContentFormatter::format. -/
def fmtGo (w : Node) (l : List RPath) (dlen : Nat) :
    Nat → List RPath → Except RErr Unit
  | _, [] => .ok ()
  | idx, p :: rest =>
    match fmtStep w l dlen idx p with
    | .ok _ => fmtGo w l dlen (idx + 1) rest
    | .error e => .error e

/-- ContentFormatter::format (dlst.rs:25-65) over the sorted keep list.
`d_len = fs_data.len() - 1` is usize arithmetic: on an empty list the
release build wraps (the loop then runs zero iterations either way, so
Nat truncated subtraction gives the same outcome; a debug build would
abort on the overflow check instead).  The removal list handed to
set_removed has no failing operation modelled: that method's body is not
under src/, and per the spec the reporter is pure presentation. -/
def ContentFormatter.format (w : Node) (l : List RPath) : Except RErr Unit :=
  fmtGo w l (l.length - 1) 0 l

/-- Lexicographic order on component lists (PathBuf Ord compares
components). -/
def lexLeStr : List String → List String → Bool
  | [], _ => true
  | _ :: _, [] => false
  | a :: xs, b :: ys => if a = b then lexLeStr xs ys else decide (a < b)

/-- Total comparison on paths used for the deterministic sort at
procdata.rs:207-210 (absolute paths order before relative ones, as
RootDir components compare below normal components; the UTF-8 validity
flag is an arbitrary final tiebreak so the order is antisymmetric). -/
def rpLe (x y : RPath) : Bool :=
  if x.abs != y.abs then x.abs
  else if x.comps = y.comps then !x.utf8 || y.utf8
  else lexLeStr x.comps y.comps

/-- The sort relation as a Prop. -/
def rleP (x y : RPath) : Prop := rpLe x y = true

instance : DecidableRel rleP := fun x y => by
  unfold rleP
  infer_instance

theorem lexLeStr_total (x y : List String) : lexLeStr x y = true ∨ lexLeStr y x = true := by
  induction x generalizing y with
  | nil => left; rfl
  | cons a xs ih =>
    cases y with
    | nil => right; rfl
    | cons b ys =>
      by_cases hab : a = b
      · subst hab
        rcases ih ys with h | h
        · left; simp [lexLeStr, h]
        · right; simp [lexLeStr, h]
      · rcases lt_or_gt_of_ne hab with h | h
        · left; simp [lexLeStr, hab, h]
        · right
          simp [lexLeStr, Ne.symm hab, h]

theorem lexLeStr_trans {x y z : List String} (h1 : lexLeStr x y = true)
    (h2 : lexLeStr y z = true) : lexLeStr x z = true := by
  induction x generalizing y z with
  | nil => rfl
  | cons a xs ih =>
    cases y with
    | nil => simp [lexLeStr] at h1
    | cons b ys =>
      cases z with
      | nil => simp [lexLeStr] at h2
      | cons c zs =>
        by_cases hab : a = b <;> by_cases hbc : b = c
        · subst hab; subst hbc
          simp only [lexLeStr, if_pos rfl] at h1 h2 ⊢
          exact ih h1 h2
        · subst hab
          simp only [lexLeStr, if_pos rfl, if_neg hbc] at h2 ⊢
          exact h2
        · subst hbc
          simp only [lexLeStr, if_pos rfl, if_neg hab] at h1 ⊢
          exact h1
        · simp only [lexLeStr, if_neg hab] at h1
          simp only [lexLeStr, if_neg hbc] at h2
          have hac : a < c := lt_trans (of_decide_eq_true h1) (of_decide_eq_true h2)
          simp [lexLeStr, ne_of_lt hac, hac]

theorem lexLeStr_antisymm {x y : List String} (h1 : lexLeStr x y = true)
    (h2 : lexLeStr y x = true) : x = y := by
  induction x generalizing y with
  | nil =>
    cases y with
    | nil => rfl
    | cons b ys => simp [lexLeStr] at h2
  | cons a xs ih =>
    cases y with
    | nil => simp [lexLeStr] at h1
    | cons b ys =>
      by_cases hab : a = b
      · subst hab
        simp only [lexLeStr, if_pos rfl] at h1 h2
        rw [ih h1 h2]
      · simp only [lexLeStr, if_neg hab] at h1
        simp only [lexLeStr, if_neg (Ne.symm hab)] at h2
        exact absurd (lt_trans (of_decide_eq_true h1) (of_decide_eq_true h2))
          (lt_irrefl a)

instance : IsTotal RPath rleP := by
  constructor
  intro x y
  unfold rleP rpLe
  by_cases hab : x.abs = y.abs
  · simp only [hab, bne_self_eq_false, Bool.false_eq_true, if_false]
    by_cases hc : x.comps = y.comps
    · simp only [hc, if_pos rfl, if_true]
      cases hu : x.utf8 <;> cases hv : y.utf8 <;> simp
    · rw [if_neg hc, if_neg (fun h => hc h.symm)]
      exact lexLeStr_total x.comps y.comps
  · have h1 : (x.abs != y.abs) = true := by
      cases hx : x.abs <;> cases hy : y.abs <;> simp_all
    have h2 : (y.abs != x.abs) = true := by
      cases hx : x.abs <;> cases hy : y.abs <;> simp_all
    rw [if_pos h1, if_pos h2]
    cases hx : x.abs <;> cases hy : y.abs <;> simp_all

instance : IsTrans RPath rleP := by
  constructor
  intro x y z h1 h2
  unfold rleP rpLe at h1 h2 ⊢
  by_cases hxy : x.abs = y.abs <;> by_cases hyz : y.abs = z.abs
  · have hxz : x.abs = z.abs := hxy.trans hyz
    simp only [hxy, hyz, hxz, bne_self_eq_false, Bool.false_eq_true, if_false] at h1 h2 ⊢
    by_cases hcxy : x.comps = y.comps <;> by_cases hcyz : y.comps = z.comps
    · have hcxz : x.comps = z.comps := hcxy.trans hcyz
      rw [if_pos hcxy] at h1
      rw [if_pos hcyz] at h2
      rw [if_pos hcxz]
      cases hu : x.utf8 <;> cases hv : y.utf8 <;> cases hw : z.utf8 <;> simp_all
    · rw [if_pos hcxy] at h1
      rw [if_neg hcyz] at h2
      rw [hcxy, if_neg hcyz]
      exact h2
    · rw [if_neg hcxy] at h1
      rw [if_pos hcyz] at h2
      rw [← hcyz, if_neg hcxy]
      exact h1
    · rw [if_neg hcxy] at h1
      rw [if_neg hcyz] at h2
      by_cases hcxz : x.comps = z.comps
      · exfalso
        rw [← hcxz] at h2
        exact hcxy (lexLeStr_antisymm h1 h2)
      · rw [if_neg hcxz]
        exact lexLeStr_trans h1 h2
  · simp only [hxy, bne_self_eq_false, Bool.false_eq_true, if_false] at h1
    have hxz : x.abs ≠ z.abs := fun h => hyz (hxy ▸ h)
    have h2' : (y.abs != z.abs) = true := by
      cases hy : y.abs <;> cases hz : z.abs <;> simp_all
    rw [if_pos h2'] at h2
    have h3 : (x.abs != z.abs) = true := by
      cases hx : x.abs <;> cases hz : z.abs <;> simp_all
    rw [if_pos h3]
    rw [hxy]
    exact h2
  · have h1' : (x.abs != y.abs) = true := by
      cases hx : x.abs <;> cases hy : y.abs <;> simp_all
    rw [if_pos h1'] at h1
    have hxz : x.abs ≠ z.abs := fun h => hxy (h.trans hyz.symm)
    have h3 : (x.abs != z.abs) = true := by
      cases hx : x.abs <;> cases hz : z.abs <;> simp_all
    rw [if_pos h3]
    exact h1
  · have h1' : (x.abs != y.abs) = true := by
      cases hx : x.abs <;> cases hy : y.abs <;> simp_all
    have h2' : (y.abs != z.abs) = true := by
      cases hy : y.abs <;> cases hz : z.abs <;> simp_all
    rw [if_pos h1'] at h1
    rw [if_pos h2'] at h2
    cases hx : x.abs <;> cases hy : y.abs <;> simp_all

instance : IsAntisymm RPath rleP := by
  constructor
  intro x y h1 h2
  unfold rleP rpLe at h1 h2
  by_cases hab : x.abs = y.abs
  · simp only [hab, bne_self_eq_false, Bool.false_eq_true, if_false] at h1 h2
    by_cases hc : x.comps = y.comps
    · rw [if_pos hc] at h1
      rw [if_pos hc.symm] at h2
      have hu : x.utf8 = y.utf8 := by
        cases hx : x.utf8 <;> cases hy : y.utf8 <;> simp_all
      cases x; cases y
      simp_all
    · rw [if_neg hc] at h1
      rw [if_neg (fun h => hc h.symm)] at h2
      exact absurd (lexLeStr_antisymm h1 h2) hc
  · have h1' : (x.abs != y.abs) = true := by
      cases hx : x.abs <;> cases hy : y.abs <;> simp_all
    rw [if_pos h1'] at h1
    have h2' : (y.abs != x.abs) = true := by
      cases hx : x.abs <;> cases hy : y.abs <;> simp_all
    rw [if_pos h2'] at h2
    cases hx : x.abs <;> cases hy : y.abs <;> simp_all

/-- Deterministic (sorted) enumeration of a path set, standing in for the
arbitrary iteration order of HashSet (every use is order-insensitive). -/
def enumSet (s : Finset RPath) : List RPath := s.sort rleP

/-- Insertion step of the stable sort. -/
def rinsert (x : RPath) : List RPath → List RPath
  | [] => [x]
  | y :: ys => if rpLe x y then x :: y :: ys else y :: rinsert x ys

/-- Vec::sort (stable) modelled as insertion sort under rpLe. -/
def rsort (l : List RPath) : List RPath :=
  l.foldr rinsert []

/-- External collaborators of the orchestrator (spec section 6), plus the
failure oracles of the destructive stage: the ELF scanner, the package
scanner (autodeps mode folded in), package content listing (fallible),
the text and directory filters (infallible in the source: their filter
methods return unit), the rootfs dissector, the per-path removal-failure
oracle and the marker-creation oracle. -/
structure ExtWorld where
  chrootOk : Bool
  elfScan : RPath → List RPath
  pkgScan : RPath → List RPath
  pkgContents : String → Except RErr (List RPath)
  textFilter : Finset RPath → Finset RPath
  pathsFilter : Finset RPath → Finset RPath
  dissect : Finset RPath → List RPath
  denied : List String → Bool
  createOk : Bool

/-- TintProcessor configuration (procdata.rs:25-31); root, autodeps and
the lockfile path are absorbed by the world, the scanner oracles and
lockName respectively. -/
structure TintProcessor where
  profile : Profile
  dry_run : Bool

/-- The seeding loop over profile targets (procdata.rs:155-165): union in
the ELF scan, the package scan, then the target itself. -/
def seedTargets (ext : ExtWorld) (ts : List RPath) : Finset RPath :=
  ts.foldl (fun s t =>
    insert t ((s ∪ (ext.elfScan t).toFinset) ∪ (ext.pkgScan t).toFinset)) ∅

/-- The package-content loop (procdata.rs:171-175); get_package_contents
is fallible and propagated with the question-mark operator. -/
def seedPackages (ext : ExtWorld) (ps : List String) (s : Finset RPath) :
    Except RErr (Finset RPath) :=
  ps.foldlM (fun acc name =>
    match ext.pkgContents name with
    | .error e => .error e
    | .ok l => .ok (acc ∪ l.toFinset)) s

/-- Stages Seeded through Dissected of TintProcessor::start
(procdata.rs:152-210): seed, text filter, directory filter, explicit
overrides, symlink closure (extend by ext_path over the current set),
resource filter (constructed from the current set, replacing it), then
the dissector; both resulting lists are sorted.  All stages up to here
only read the world. -/
def computeSets (tp : TintProcessor) (ext : ExtWorld) (w : Node) :
    Except RErr (List RPath × List RPath) :=
  match seedPackages ext tp.profile.packages (seedTargets ext tp.profile.targets) with
  | .error e => .error e
  | .ok s1 =>
    let s2 := ext.textFilter s1
    let s3 := ext.pathsFilter s2
    let s4 := applyOverrides tp.profile.keepPaths tp.profile.prunePaths s3
    let s5 := s4 ∪ ext_path (readLinkW w) (enumSet s4) (enumSet s4) ∅
    let rdf := ResourcesDataFilter.new (enumSet s5) tp.profile
    match rdf.filter s5 with
    | .error e => .error e
    | .ok s6 =>
      let removal := ext.dissect s6
      .ok (rsort (enumSet s6), rsort removal)

/-- TintProcessor::start (procdata.rs:145-219): chroot, lockfile check
(abort with the "already tinted" AlreadyExists error before any scanning
when the marker exists), the read-only pipeline, then either the dry-run
report or the destructive apply.  The second component is the world after
the run. -/
def TintProcessor.start (tp : TintProcessor) (ext : ExtWorld) (w : Node) :
    Except RErr (List RPath × List RPath) × Node :=
  if !ext.chrootOk then (.error .ioFail, w)
  else if lockExists w then (.error .alreadyTinted, w)
  else
    match computeSets tp ext w with
    | .error e => (.error e, w)
    | .ok (keep, removal) =>
      if tp.dry_run then
        match ContentFormatter.format w keep with
        | .ok _ => (.ok (keep, removal), w)
        | .error e => (.error e, w)
      else
        match apply_changes ext.denied ext.createOk w removal with
        | (.ok _, w2) => (.ok (keep, removal), w2)
        | (.error e, w2) => (.error e, w2)

/-- Concrete inputs used by the example theorems below. -/
def p_ghost : RPath := ⟨true, ["ghost"], true⟩

/-- A plain absolute path /a. -/
def p_a : RPath := ⟨true, ["a"], true⟩

/-- An absolute path whose name is not valid UTF-8. -/
def p_bad : RPath := ⟨true, ["data"], false⟩

/-- The symlink /usr/bin/foo of the spec's closure example. -/
def binfoo : RPath := ⟨true, ["usr", "bin", "foo"], true⟩

/-- Its raw (relative) link target ../lib/foo.real. -/
def fooTarget : RPath := ⟨false, ["..", "lib", "foo.real"], true⟩

/-- The path the spec example expects, /usr/lib/foo.real. -/
def fooClaimed : RPath := ⟨true, ["usr", "lib", "foo.real"], true⟩

/-- The path the code actually produces, /usr/bin/../lib/foo.real. -/
def fooActual : RPath := ⟨true, ["usr", "bin", "..", "lib", "foo.real"], true⟩

/-- Read-link view for the closure example: exactly one symlink. -/
def fsFoo : RPath → Option RPath := fun p => if p = binfoo then some fooTarget else none

/-- A profile with no targets, packages, overrides, or enabled toggles. -/
def emptyProfile : Profile := ⟨[], [], [], [], false, false⟩

/-- A profile whose only effect is the explicit keep path /ghost. -/
def ghostProfile : Profile := ⟨[], [], [p_ghost], [], false, false⟩

/-- A profile with only the archive toggle enabled. -/
def profArc : Profile := ⟨[], [], [], [], true, false⟩

/-- Trivial external collaborators: scans and dissection return nothing,
filters are the identity, no removal is denied, marker creation works. -/
def extTriv : ExtWorld :=
  ⟨true, fun _ => [], fun _ => [], fun _ => .ok [], id, id, fun _ => [],
   fun _ => false, true⟩

/-- An empty confined root. -/
def w0 : Node := .dir []

/-- The empty root after a successful apply run (marker present). -/
def wLocked : Node := .dir [(lockName, .file)]

/-- Apply-mode processor over the empty profile. -/
def tpApply : TintProcessor := ⟨emptyProfile, false⟩

/-- Dry-run processor over the empty profile. -/
def tpDry : TintProcessor := ⟨emptyProfile, true⟩

/-- Dry-run processor whose keep set contains the nonexistent /ghost. -/
def tpGhost : TintProcessor := ⟨ghostProfile, true⟩

/-- Failure oracle denying exactly the removal of /a. -/
def dDenyA : List String → Bool := fun cs => cs == ["a"]

theorem mem_foldl_erase (l : List RPath) (s : Finset RPath) (x : RPath) :
    x ∈ l.foldl (fun acc p => acc.erase p) s ↔ x ∈ s ∧ x ∉ l := by
  induction l generalizing s with
  | nil => simp
  | cons p rest ih =>
    simp only [List.foldl_cons, ih, Finset.mem_erase, List.mem_cons]
    constructor
    · rintro ⟨⟨hne, hs⟩, hrest⟩
      exact ⟨hs, fun h => h.elim hne hrest⟩
    · rintro ⟨hs, hnot⟩
      exact ⟨⟨fun h => hnot (Or.inl h), hs⟩, fun h => hnot (Or.inr h)⟩

theorem filter_archives_error {rdf : ResourcesDataFilter} {q : RPath} {e : RErr}
    (h : rdf.filter_archives q = .error e) : e = .unwrapFail := by
  unfold ResourcesDataFilter.filter_archives at h
  split at h
  · cases h
  · split at h
    · cases h
      rfl
    · cases h

theorem filter_images_error {rdf : ResourcesDataFilter} {q : RPath} {e : RErr}
    (h : rdf.filter_images q = .error e) : e = .unwrapFail := by
  unfold ResourcesDataFilter.filter_images at h
  split at h
  · cases h
  · split at h
    · cases h
      rfl
    · cases h

theorem filterList_off {rdf : ResourcesDataFilter}
    (ha : rdf.remove_archives = false) (hi : rdf.remove_images = false) :
    ∀ l, rdf.filterList l = .ok l := by
  intro l
  induction l with
  | nil => rfl
  | cons p rest ih =>
    unfold ResourcesDataFilter.filterList
    have h1 : rdf.filter_archives p = .ok false := by
      unfold ResourcesDataFilter.filter_archives
      simp [ha]
    have h2 : rdf.filter_images p = .ok false := by
      unfold ResourcesDataFilter.filter_images
      simp [hi]
    rw [h1, h2, ih]

theorem filterList_invalid {rdf : ResourcesDataFilter} {p : RPath}
    (htog : rdf.remove_archives = true ∨ rdf.remove_images = true)
    (hbad : p.utf8 = false) :
    ∀ l, p ∈ l → rdf.filterList l = .error .unwrapFail := by
  intro l
  induction l with
  | nil => intro h; cases h
  | cons q rest ih =>
    intro hmem
    unfold ResourcesDataFilter.filterList
    rcases List.mem_cons.mp hmem with heq | hrest
    · subst heq
      have hstr : p.toStr = none := by simp [RPath.toStr, hbad]
      rcases htog with ht | ht
      · have : rdf.filter_archives p = .error .unwrapFail := by
          unfold ResourcesDataFilter.filter_archives
          simp [ht, hstr]
        rw [this]
      · cases harc : rdf.filter_archives p with
        | error e =>
          rw [filter_archives_error harc]
        | ok b =>
          cases b with
          | true =>
            exfalso
            unfold ResourcesDataFilter.filter_archives at harc
            split at harc
            · cases harc
            · rw [hstr] at harc
              cases harc
          | false =>
            have : rdf.filter_images p = .error .unwrapFail := by
              unfold ResourcesDataFilter.filter_images
              simp [ht, hstr]
            rw [this]
    · cases harc : rdf.filter_archives q with
      | error e => rw [filter_archives_error harc]
      | ok b =>
        cases b with
        | true => exact ih hrest
        | false =>
          cases himg : rdf.filter_images q with
          | error e => rw [filter_images_error himg]
          | ok b2 =>
            cases b2 with
            | true => exact ih hrest
            | false => rw [ih hrest]

/-- C10: in the explicit-overrides stage keep-paths are unioned in first
and prune-paths removed afterwards, so any path listed in both is absent
from the keep set after the stage: prune takes precedence over keep. -/
theorem C10_prune_precedence :
    ∀ (keep prune : List RPath) (s : Finset RPath) (p : RPath),
      p ∈ keep → p ∈ prune → p ∉ applyOverrides keep prune s := by
  intro keep prune s p _hk hp
  unfold applyOverrides
  rw [mem_foldl_erase]
  rintro ⟨-, hnot⟩
  exact hnot hp

/-- Witness for C10 at a concrete input: /a listed in both keep and prune
ends up outside the override-stage output. -/
theorem C10_prune_precedence_witness :
    p_a ∈ [p_a] ∧ p_a ∈ [p_a] ∧ p_a ∉ applyOverrides [p_a] [p_a] {p_ghost} :=
  ⟨List.mem_singleton.mpr rfl, List.mem_singleton.mpr rfl,
    C10_prune_precedence [p_a] [p_a] {p_ghost} p_a
      (List.mem_singleton.mpr rfl) (List.mem_singleton.mpr rfl)⟩

/-- C4 counterexample: with both toggles disabled the filter is not the
identity for an arbitrary candidate list: constructed over an empty
candidate list it empties the working set {/a} instead of preserving it
(resources.rs:76-77 clears the set and refills it from the candidates). -/
theorem C4_counterexample :
    (ResourcesDataFilter.new [] emptyProfile).filter {p_a} = .ok (∅ : Finset RPath) ∧
      (∅ : Finset RPath) ≠ {p_a} := by
  constructor
  · rfl
  · decide

/-- C4 amended: with both toggles disabled the filter replaces the working
set with (the set of) its construction-time candidate list unchanged; the
output equals the input exactly when the candidates enumerate the input
set, as in the pipeline, which constructs the filter from the current
set. -/
theorem C4_filter_noop :
    ∀ (rdf : ResourcesDataFilter) (s : Finset RPath),
      rdf.remove_archives = false → rdf.remove_images = false →
      rdf.filter s = .ok rdf.data.toFinset ∧
        (rdf.data.toFinset = s → rdf.filter s = .ok s) := by
  intro rdf s ha hi
  have h : rdf.filter s = .ok rdf.data.toFinset := by
    unfold ResourcesDataFilter.filter
    rw [filterList_off ha hi]
  exact ⟨h, fun he => he ▸ h⟩

/-- Witness for C4's amended statement at a concrete input. -/
theorem C4_filter_noop_witness :
    (ResourcesDataFilter.new [p_a] emptyProfile).remove_archives = false ∧
    (ResourcesDataFilter.new [p_a] emptyProfile).remove_images = false ∧
    (ResourcesDataFilter.new [p_a] emptyProfile).filter {p_a} = .ok ({p_a} : Finset RPath) := by
  refine ⟨rfl, rfl, ?_⟩
  have h := (C4_filter_noop (ResourcesDataFilter.new [p_a] emptyProfile) {p_a} rfl rfl).2
  exact h (by decide)

/-- C8: with at least one toggle enabled, a candidate path whose name is
not valid text makes the resource filter abort with an explicit failure
(the to_str unwrap at resources.rs:38/55) rather than silently skipping
or keeping the path. -/
theorem C8_invalid_name_aborts :
    ∀ (rdf : ResourcesDataFilter) (p : RPath) (s : Finset RPath),
      (rdf.remove_archives = true ∨ rdf.remove_images = true) →
      p ∈ rdf.data → p.utf8 = false →
      rdf.filter s = .error .unwrapFail := by
  intro rdf p s htog hmem hbad
  unfold ResourcesDataFilter.filter
  rw [filterList_invalid htog hbad rdf.data hmem]

/-- Witness for C8 at a concrete input: archive toggle on, one non-UTF-8
candidate. -/
theorem C8_invalid_name_aborts_witness :
    ((ResourcesDataFilter.new [p_bad] profArc).remove_archives = true ∨
      (ResourcesDataFilter.new [p_bad] profArc).remove_images = true) ∧
    p_bad ∈ (ResourcesDataFilter.new [p_bad] profArc).data ∧
    p_bad.utf8 = false ∧
    (ResourcesDataFilter.new [p_bad] profArc).filter {p_a} = .error .unwrapFail := by
  refine ⟨Or.inl rfl, List.mem_singleton.mpr rfl, rfl, ?_⟩
  exact C8_invalid_name_aborts _ p_bad _ (Or.inl rfl) (List.mem_singleton.mpr rfl) rfl

/-- C1 counterexample: closing { /usr/bin/foo }, where /usr/bin/foo links
to ../lib/foo.real, does not yield { /usr/bin/foo, /usr/lib/foo.real }:
the lexical join keeps the dot-dot component, and PathBuf equality does
not collapse it. -/
theorem C1_counterexample :
    ({binfoo} : Finset RPath) ∪ ext_path fsFoo [binfoo] [binfoo] ∅ ≠
      {binfoo, fooClaimed} := by
  rw [ext_path_closure]
  decide

/-- C1 amended: one closure pass over the original input adds exactly the
parent-joined (purely lexical, dot-dot preserved) link target of every
symlink member of the original input not already in the accumulator and
nothing else (in particular it never re-scans newly discovered targets);
the example set therefore closes to { /usr/bin/foo,
/usr/bin/../lib/foo.real }. -/
theorem C1_ext_path :
    (∀ (f : RPath → Option RPath) (orig : List RPath) (np : Finset RPath),
      ext_path f orig orig np = np ∪ targetsOf f orig) ∧
    ({binfoo} : Finset RPath) ∪ ext_path fsFoo [binfoo] [binfoo] ∅ =
      {binfoo, fooActual} := by
  refine ⟨ext_path_closure, ?_⟩
  rw [ext_path_closure]
  decide

/-- C7: ext_path terminates for every input; the recursion depth is
bounded by the number of distinct resolved targets, which is itself at
most the number of symlink members of the original input, so the
fuel-instrumented runner with that budget finishes and agrees with the
total function. -/
theorem C7_ext_path_terminates :
    ∀ (f : RPath → Option RPath) (orig : List RPath) (np : Finset RPath),
      ext_path_fuel f orig (targetsOf f orig).card orig np =
        some (ext_path f orig orig np) ∧
      (targetsOf f orig).card ≤ orig.countP (fun t => (f t).isSome) := by
  intro f orig np
  constructor
  · exact ext_path_fuel_spec f orig (targetsOf f orig \ np).card np (le_refl _)
      (targetsOf f orig).card
      (Finset.card_le_card (Finset.sdiff_subset)) orig (fun x hx => hx)
  · exact targetsOf_card_le f orig

theorem sweep_ok (denied : List String → Bool) :
    ∀ (skel : Node) (cur : List String) (w : Node),
      (∀ es, skel = Node.dir es → ∃ r, remove_empty_dirs denied skel cur w = .ok r) := by
  intro skel cur w
  refine remove_empty_dirs.induct denied
    (fun skel cur w => ∀ es, skel = Node.dir es →
      ∃ r, remove_empty_dirs denied skel cur w = .ok r)
    (fun es cur w => ∃ r, redEntries denied es cur w = .ok r)
    ?_ ?_ ?_ ?_ ?_ ?_ ?_ ?_ ?_ skel cur w
  · intro cur w entries e hred h2 es heq
    rcases h2 with ⟨r, hr⟩
    rw [hred] at hr
    cases hr
  · intro cur w entries w2 empty hred _h2 es heq
    refine ⟨(remove_broken_symlinks denied
      ((Node.lookup (normComps cur) w2).getD (.dir [])) cur w2, empty), ?_⟩
    simp only [remove_empty_dirs]
    rw [hred]
  · intro t cur w hnd es heq
    exact (hnd es heq).elim
  · intro cur w
    exact ⟨(w, true), by simp [redEntries]⟩
  · intro cur w k rest
    dsimp only
    intro entries e1 hrec h1
    rcases h1 entries rfl with ⟨r, hr⟩
    rw [hrec] at hr
    cases hr
  · intro cur w k rest
    dsimp only
    intro entries w2 hrec h1 h2
    rcases h2 with ⟨r, hr⟩
    refine ⟨r, ?_⟩
    simp only [redEntries]
    rw [hrec]
    simpa using hr
  · intro cur w k rest
    dsimp only
    intro entries w2 empty hemp e1 hrest hrec h1 h2
    rcases h2 with ⟨r, hr⟩
    rw [hrest] at hr
    cases hr
  · intro cur w k rest
    dsimp only
    intro entries w2 empty hemp w21 empty1 hrest hrec h1 h2
    refine ⟨(w21, false), ?_⟩
    simp only [redEntries]
    rw [hrec]
    have hne : empty = false := by
      cases empty
      · rfl
      · exact absurd rfl hemp
    subst hne
    simp only [Bool.false_eq_true, if_false]
    rw [hrest]
  · intro cur w k n rest hnd h2
    rcases h2 with ⟨r, hr⟩
    refine ⟨r, ?_⟩
    simp only [redEntries]
    cases n with
    | file => exact hr
    | link t => exact hr
    | dir es => exact (hnd es rfl).elim

/-- C9: the post-delete sweep never escalates a removal failure: whatever
the removal-failure oracle does (including failing every removal), the
sweep of a directory returns Ok; broken-symlink and empty-directory
removal failures are attempted and ignored. -/
theorem C9_sweep_best_effort :
    ∀ (denied : List String → Bool) (es : List (String × Node))
      (cur : List String) (w : Node),
      ∃ r, remove_empty_dirs denied (.dir es) cur w = .ok r :=
  fun denied es cur w => sweep_ok denied (.dir es) cur w es rfl

theorem findE_eraseE_none {q c : String} {es : List (String × Node)}
    (h : findE q es = none) : findE q (eraseE c es) = none := by
  induction es with
  | nil => rfl
  | cons kn rest ih =>
    obtain ⟨k, n⟩ := kn
    simp only [findE] at h
    by_cases hkq : k = q
    · simp [hkq] at h
    · simp only [hkq, if_false] at h
      simp only [eraseE]
      by_cases hkc : k = c
      · simp only [hkc, if_true]
        exact h
      · simp only [hkc, if_false, findE, hkq]
        exact ih h

theorem findE_updateE_none {q c : String} {nw : Node} {es : List (String × Node)}
    (h : findE q es = none) : findE q (updateE c nw es) = none := by
  induction es with
  | nil => rfl
  | cons kn rest ih =>
    obtain ⟨k, n⟩ := kn
    simp only [findE] at h
    by_cases hkq : k = q
    · simp [hkq] at h
    · simp only [hkq, if_false] at h
      simp only [updateE]
      by_cases hkc : k = c
      · simp only [hkc, if_true, findE]
        rw [if_neg (hkc ▸ hkq)]
        exact h
      · simp only [hkc, if_false, findE, hkq, if_false]
        exact ih h

theorem lookup_one_dir (q : String) (es : List (String × Node)) :
    Node.lookup [q] (.dir es) = none ↔ findE q es = none := by
  simp only [Node.lookup]
  cases h : findE q es with
  | none => simp
  | some n => simp [Node.lookup]

theorem removeEntry_lock {can : Node → Bool} {q : String} :
    ∀ (cs : List String) (w w' : Node), removeEntry can cs w = some w' →
      Node.lookup [q] w = none → Node.lookup [q] w' = none := by
  intro cs w w' hrem hnone
  cases cs with
  | nil =>
    simp [removeEntry] at hrem
  | cons c cs' =>
    cases w with
    | file => simp [removeEntry] at hrem
    | link t => simp [removeEntry] at hrem
    | dir es =>
      rw [lookup_one_dir] at hnone
      cases cs' with
      | nil =>
        simp only [removeEntry] at hrem
        cases hf : findE c es with
        | none => rw [hf] at hrem; cases hrem
        | some n =>
          simp only [hf] at hrem
          by_cases hcan : can n = true
          · rw [if_pos hcan] at hrem
            cases hrem
            rw [lookup_one_dir]
            exact findE_eraseE_none hnone
          · rw [if_neg hcan] at hrem
            cases hrem
      | cons c2 cs2 =>
        simp only [removeEntry] at hrem
        cases hf : findE c es with
        | none => rw [hf] at hrem; cases hrem
        | some sub =>
          simp only [hf] at hrem
          cases hsub : removeEntry can (c2 :: cs2) sub with
          | none => rw [hsub] at hrem; cases hrem
          | some s =>
            simp only [hsub] at hrem
            cases hrem
            rw [lookup_one_dir]
            exact findE_updateE_none hnone

theorem remove_file_lock {denied : List String → Bool} {q : String}
    {w w' : Node} {cs : List String} (h : remove_file denied w cs = some w')
    (hn : Node.lookup [q] w = none) : Node.lookup [q] w' = none := by
  unfold remove_file at h
  split at h
  · cases h
  · exact removeEntry_lock _ _ _ h hn

theorem remove_dir_lock {denied : List String → Bool} {q : String}
    {w w' : Node} {cs : List String} (h : remove_dir denied w cs = some w')
    (hn : Node.lookup [q] w = none) : Node.lookup [q] w' = none := by
  unfold remove_dir at h
  split at h
  · cases h
  · exact removeEntry_lock _ _ _ h hn

theorem delPhase_lock {denied : List String → Bool} {q : String} :
    ∀ (ps : List RPath) (w : Node), Node.lookup [q] w = none →
      Node.lookup [q] (delPhase denied w ps) = none := by
  intro ps
  induction ps with
  | nil => intro w h; exact h
  | cons p rest ih =>
    intro w h
    simp only [delPhase, List.foldl_cons]
    cases hrf : remove_file denied w p.comps with
    | none => exact ih w h
    | some w2 => exact ih w2 (remove_file_lock hrf h)

theorem rbs_lock {denied : List String → Bool} {q : String} :
    ∀ (skel : Node) (cur : List String) (w : Node),
      Node.lookup [q] w = none →
      Node.lookup [q] (remove_broken_symlinks denied skel cur w) = none := by
  intro skel cur w
  refine remove_broken_symlinks.induct denied
    (fun skel cur w => Node.lookup [q] w = none →
      Node.lookup [q] (remove_broken_symlinks denied skel cur w) = none)
    (fun es cur w => Node.lookup [q] w = none →
      Node.lookup [q] (rbsEntries denied es cur w) = none)
    ?_ ?_ ?_ ?_ skel cur w
  · intro cur w entries h2 h
    simp only [remove_broken_symlinks]
    exact h2 h
  · intro t cur w hnd h
    cases t with
    | file => simpa [remove_broken_symlinks] using h
    | link tg => simpa [remove_broken_symlinks] using h
    | dir es => exact (hnd es rfl).elim
  · intro cur w h
    simpa [rbsEntries] using h
  · intro cur w k n rest
    dsimp only
    intro h1 h2 h
    have hw1 : Node.lookup [q]
        (if brokenLink w (cur ++ [k]) = true then
          match remove_file denied w (cur ++ [k]) with
          | some w2 => w2
          | none => w
        else w) = none := by
      split
      · cases hrf : remove_file denied w (cur ++ [k]) with
        | none => exact h
        | some w2 => exact remove_file_lock hrf h
      · exact h
    simp only [rbsEntries]
    refine h2 ?_
    split
    · exact h1 hw1
    · exact hw1

theorem red_lock {denied : List String → Bool} {q : String} :
    ∀ (skel : Node) (cur : List String) (w : Node) (w' : Node) (b : Bool),
      remove_empty_dirs denied skel cur w = .ok (w', b) →
      Node.lookup [q] w = none → Node.lookup [q] w' = none := by
  intro skel cur w
  refine remove_empty_dirs.induct denied
    (fun skel cur w => ∀ w' b, remove_empty_dirs denied skel cur w = .ok (w', b) →
      Node.lookup [q] w = none → Node.lookup [q] w' = none)
    (fun es cur w => ∀ w' b, redEntries denied es cur w = .ok (w', b) →
      Node.lookup [q] w = none → Node.lookup [q] w' = none)
    ?_ ?_ ?_ ?_ ?_ ?_ ?_ ?_ ?_ skel cur w
  · intro cur w entries e hred _h2 w' b hok _h
    simp only [remove_empty_dirs] at hok
    rw [hred] at hok
    cases hok
  · intro cur w entries w2 empty hred h2 w' b hok h
    simp only [remove_empty_dirs] at hok
    rw [hred] at hok
    simp only [Except.ok.injEq, Prod.mk.injEq] at hok
    rcases hok with ⟨hw', -⟩
    subst hw'
    exact rbs_lock _ _ _ (h2 w2 empty hred h)
  · intro t cur w hnd w' b hok h
    cases t with
    | file => simp [remove_empty_dirs] at hok
    | link tg => simp [remove_empty_dirs] at hok
    | dir es => exact (hnd es rfl).elim
  · intro cur w w' b hok h
    simp only [redEntries, Except.ok.injEq, Prod.mk.injEq] at hok
    rcases hok with ⟨hw', -⟩
    subst hw'
    exact h
  · intro cur w k rest
    dsimp only
    intro entries e1 hrec _h1 w' b hok _h
    simp only [redEntries] at hok
    rw [hrec] at hok
    cases hok
  · intro cur w k rest
    dsimp only
    intro entries w2 hrec h1 h2 w' b hok h
    simp only [redEntries] at hok
    rw [hrec] at hok
    simp only [if_true] at hok
    have hw2 : Node.lookup [q] w2 = none := h1 w2 true hrec h
    refine h2 w' b hok ?_
    split
    · rename_i x hx
      exact remove_dir_lock hx hw2
    · exact hw2
  · intro cur w k rest
    dsimp only
    intro entries w2 empty hemp e1 hrest hrec _h1 _h2 w' b hok _h
    simp only [redEntries] at hok
    rw [hrec] at hok
    have hne : empty = false := by
      cases empty
      · rfl
      · exact absurd rfl hemp
    subst hne
    simp only [Bool.false_eq_true, if_false] at hok
    rw [hrest] at hok
    cases hok
  · intro cur w k rest
    dsimp only
    intro entries w2 empty hemp w21 empty1 hrest hrec h1 h2 w' b hok h
    simp only [redEntries] at hok
    rw [hrec] at hok
    have hne : empty = false := by
      cases empty
      · rfl
      · exact absurd rfl hemp
    subst hne
    simp only [Bool.false_eq_true, if_false] at hok
    rw [hrest] at hok
    simp only [Except.ok.injEq, Prod.mk.injEq] at hok
    rcases hok with ⟨hw', -⟩
    subst hw'
    have hw2 : Node.lookup [q] w2 = none := h1 w2 false hrec h
    exact h2 w21 empty1 hrest hw2
  · intro cur w k n rest hnd h2 w' b hok h
    simp only [redEntries] at hok
    cases n with
    | file => exact h2 w' b hok h
    | link tg => exact h2 w' b hok h
    | dir es => exact (hnd es rfl).elim

theorem findE_upsertE_self (c : String) (n : Node) :
    ∀ es, findE c (upsertE c n es) = some n := by
  intro es
  induction es with
  | nil => simp [upsertE, findE]
  | cons km rest ih =>
    obtain ⟨k, m⟩ := km
    by_cases hk : k = c
    · simp [upsertE, findE, hk]
    · simp only [upsertE, hk, if_false, findE]
      exact ih

theorem lockExists_upsert (es : List (String × Node)) :
    lockExists (.dir (upsertE lockName .file es)) = true := by
  have h40 : (40 : Nat) = 39 + 1 := rfl
  unfold lockExists
  rw [h40]
  simp only [stat]
  have hn : normComps [lockName] = [lockName] := by decide
  rw [hn]
  simp only [Node.lookup, findE_upsertE_self]
  rfl

theorem apply_ok {denied : List String → Bool} {co : Bool} {w : Node}
    {ps : List RPath} {u : Unit} {w2 : Node}
    (h : apply_changes denied co w ps = (.ok u, w2)) :
    co = true ∧ lockExists w2 = true := by
  simp only [apply_changes] at h
  cases hsw : remove_empty_dirs denied (delPhase denied w ps) []
      (delPhase denied w ps) with
  | error e =>
    rw [hsw] at h
    simp at h
  | ok r =>
    obtain ⟨wr, b⟩ := r
    rw [hsw] at h
    cases wr with
    | file => simp at h
    | link tg => simp at h
    | dir es =>
      cases co with
      | false => simp at h
      | true =>
        simp only [if_true, Prod.mk.injEq] at h
        refine ⟨rfl, ?_⟩
        rw [← h.2]
        exact lockExists_upsert es

/-- C3: in apply mode each individual deletion failure is skipped (the
rest of the removal set is still processed); with marker creation failing
apply_changes returns an error and the marker still does not exist; and
apply_changes can return success only when marker creation succeeded. -/
theorem C3_apply_changes :
    (∀ (denied : List String → Bool) (w : Node) (p : RPath) (l : List RPath),
      denied p.comps = true → delPhase denied w (p :: l) = delPhase denied w l) ∧
    (∀ (denied : List String → Bool) (w : Node) (ps : List RPath),
      Node.lookup [lockName] w = none →
      (∃ e, (apply_changes denied false w ps).1 = .error e) ∧
        Node.lookup [lockName] (apply_changes denied false w ps).2 = none) ∧
    (∀ (denied : List String → Bool) (co : Bool) (w : Node) (ps : List RPath)
      (u : Unit) (w2 : Node),
      apply_changes denied co w ps = (.ok u, w2) → co = true) := by
  refine ⟨?_, ?_, ?_⟩
  · intro denied w p l hd
    simp [delPhase, remove_file, hd]
  · intro denied w ps h
    have h1 : Node.lookup [lockName] (delPhase denied w ps) = none :=
      delPhase_lock ps w h
    simp only [apply_changes]
    cases hsw : remove_empty_dirs denied (delPhase denied w ps) []
        (delPhase denied w ps) with
    | error e =>
      exact ⟨⟨e, rfl⟩, h1⟩
    | ok r =>
      obtain ⟨wr, b⟩ := r
      have h2 : Node.lookup [lockName] wr = none :=
        red_lock _ _ _ wr b hsw h1
      cases wr with
      | file => exact ⟨⟨.ioFail, rfl⟩, h2⟩
      | link tg => exact ⟨⟨.ioFail, rfl⟩, h2⟩
      | dir es => exact ⟨⟨.ioFail, rfl⟩, h2⟩
  · intro denied co w ps u w2 h
    exact (apply_ok h).1

theorem start_locked {tp : TintProcessor} {ext : ExtWorld} {w : Node}
    (hc : ext.chrootOk = true) (hl : lockExists w = true) :
    TintProcessor.start tp ext w = (.error .alreadyTinted, w) := by
  simp [TintProcessor.start, hc, hl]

/-- C2: when the completion marker exists under the confined root, start
aborts with the "already tinted" error right after root-binding and
leaves the world untouched; consequently a second run (any profile or
collaborators) after a successful apply-mode first run fails with that
error without mutating anything. -/
theorem C2_lock_guard :
    (∀ (tp : TintProcessor) (ext : ExtWorld) (w : Node),
      ext.chrootOk = true → lockExists w = true →
      TintProcessor.start tp ext w = (.error .alreadyTinted, w)) ∧
    (∀ (tp : TintProcessor) (ext : ExtWorld) (w : Node)
      (res : List RPath × List RPath) (w1 : Node)
      (tp2 : TintProcessor) (ext2 : ExtWorld),
      tp.dry_run = false → ext2.chrootOk = true →
      TintProcessor.start tp ext w = (.ok res, w1) →
      TintProcessor.start tp2 ext2 w1 = (.error .alreadyTinted, w1)) := by
  constructor
  · intro tp ext w hc hl
    exact start_locked hc hl
  · intro tp ext w res w1 tp2 ext2 hdry hc2 hstart
    unfold TintProcessor.start at hstart
    split at hstart
    · simp at hstart
    · split at hstart
      · simp at hstart
      · split at hstart
        · simp at hstart
        · rw [hdry] at hstart
          simp only [Bool.false_eq_true, if_false] at hstart
          split at hstart
          · rename_i u w2 happ
            simp only [Prod.mk.injEq] at hstart
            rcases hstart with ⟨-, hw1⟩
            subst hw1
            exact start_locked hc2 (apply_ok happ).2
          · simp at hstart

/-- C6: in dry-run mode start leaves the filesystem world unchanged in
every case (the reporting branch only reads). -/
theorem C6_dry_run_pure :
    ∀ (tp : TintProcessor) (ext : ExtWorld) (w : Node),
      tp.dry_run = true → (TintProcessor.start tp ext w).2 = w := by
  intro tp ext w hdry
  unfold TintProcessor.start
  rw [hdry]
  simp only [if_true]
  split
  · rfl
  · split
    · rfl
    · split
      · rfl
      · split
        · rfl
        · rfl

theorem computeSets_emptyP (b : Bool) (w : Node) :
    computeSets ⟨emptyProfile, b⟩ extTriv w = .ok ([], []) := by
  have hT : extTriv.textFilter = id := rfl
  have hP : extTriv.pathsFilter = id := rfl
  have hD : ∀ s, extTriv.dissect s = [] := fun _ => rfl
  have h1 : seedPackages extTriv ([] : List String) (seedTargets extTriv []) =
      .ok ∅ := rfl
  have h2 : applyOverrides [] [] (∅ : Finset RPath) = ∅ := by decide
  have h3 : enumSet (∅ : Finset RPath) = [] := by
    simp [enumSet, Finset.sort_empty]
  have h5 : (∅ : Finset RPath) ∪ ∅ = ∅ := by decide
  have h6 : ResourcesDataFilter.filter ⟨[], false, false⟩ ∅ =
      .ok (∅ : Finset RPath) := rfl
  have h8 : rsort [] = [] := rfl
  simp only [computeSets, emptyProfile, ResourcesDataFilter.new, id_eq,
    hT, hP, hD, h1, h2, h3, h5, h6, h8, ext_path_nil]

theorem computeSets_ghost : computeSets tpGhost extTriv w0 = .ok ([p_ghost], []) := by
  have hT : extTriv.textFilter = id := rfl
  have hP : extTriv.pathsFilter = id := rfl
  have hD : ∀ s, extTriv.dissect s = [] := fun _ => rfl
  have h1 : seedPackages extTriv ([] : List String) (seedTargets extTriv []) =
      .ok ∅ := rfl
  have h2 : applyOverrides [p_ghost] [] (∅ : Finset RPath) = {p_ghost} := by decide
  have h3 : enumSet ({p_ghost} : Finset RPath) = [p_ghost] := by
    simp [enumSet, Finset.sort_singleton]
  have h4 : ext_path (readLinkW w0) [p_ghost] [p_ghost] ∅ = ∅ := by
    rw [ext_path_closure]
    decide
  have h5 : ({p_ghost} : Finset RPath) ∪ ∅ = {p_ghost} := by decide
  have h6 : ResourcesDataFilter.filter ⟨[p_ghost], false, false⟩ {p_ghost} =
      .ok ({p_ghost} : Finset RPath) := rfl
  have h7 : rsort [p_ghost] = [p_ghost] := by decide
  have h8 : rsort [] = [] := rfl
  simp only [computeSets, tpGhost, ghostProfile, ResourcesDataFilter.new, id_eq,
    hT, hP, hD, h1, h2, h3, h4, h5, h6, h7, h8]

theorem apply_changes_empty :
    apply_changes (fun _ => false) true w0 [] = (.ok (), wLocked) := by
  have hsw : remove_empty_dirs (fun _ => false) w0 [] w0 = .ok (w0, true) := by
    simp only [w0, remove_empty_dirs, redEntries, normComps, List.foldl_nil,
      Node.lookup, Option.getD_some, remove_broken_symlinks, rbsEntries]
  have hdel : delPhase (fun _ => false) w0 [] = w0 := rfl
  simp only [apply_changes]
  rw [hdel, hsw]
  simp [w0, wLocked, upsertE]

theorem start_eval_first :
    TintProcessor.start tpApply extTriv w0 = (.ok ([], []), wLocked) := by
  have hcs : computeSets tpApply extTriv w0 = .ok ([], []) :=
    computeSets_emptyP false w0
  have hlock : lockExists w0 = false := by decide
  have hchr : (!extTriv.chrootOk) = false := rfl
  have hden : extTriv.denied = (fun _ => false) := rfl
  have hcr : extTriv.createOk = true := rfl
  have hdr : tpApply.dry_run = false := rfl
  simp only [TintProcessor.start, hchr, Bool.false_eq_true, if_false, hlock,
    hcs, hdr, hden, hcr, apply_changes_empty]

/-- C5 counterexample: a run in which root-binding, the lock check and
every stage through dissection succeed (computeSets returns Ok), in
dry-run mode, yet start fails: the reporting stage aborts on the
metadata unwrap (dlst.rs:29) because the keep set contains the explicit
keep path /ghost which does not exist under the root. -/
theorem C5_counterexample :
    tpGhost.dry_run = true ∧
    computeSets tpGhost extTriv w0 = .ok ([p_ghost], []) ∧
    TintProcessor.start tpGhost extTriv w0 = (.error .unwrapFail, w0) := by
  refine ⟨rfl, computeSets_ghost, ?_⟩
  have hlock : lockExists w0 = false := by decide
  have hchr : (!extTriv.chrootOk) = false := rfl
  have hdr : tpGhost.dry_run = true := rfl
  have hfmt : ContentFormatter.format w0 [p_ghost] = .error .unwrapFail := rfl
  simp only [TintProcessor.start, hchr, Bool.false_eq_true, if_false, hlock,
    computeSets_ghost, hdr, if_true, hfmt]

/-- C5 amended: in dry-run mode, a run whose stages through dissection
succeed returns Ok provided the keep list passes the reporter's checks
(every keep path resolves to existing metadata, has a parent and a
UTF-8 name, and symlink targets are UTF-8) — the empty keep list always
passes; but the reporting stage can abort (nonexistent keep path,
non-UTF-8 name, or a bare-root entry), so it is not failure-free in
general. -/
theorem C5_dry_run_report :
    (∀ (tp : TintProcessor) (ext : ExtWorld) (w : Node) (keep removal : List RPath),
      tp.dry_run = true → ext.chrootOk = true → lockExists w = false →
      computeSets tp ext w = .ok (keep, removal) →
      ContentFormatter.format w keep = .ok () →
      TintProcessor.start tp ext w = (.ok (keep, removal), w)) ∧
    (∀ w : Node, ContentFormatter.format w [] = .ok ()) := by
  constructor
  · intro tp ext w keep removal hdry hc hl hcs hfmt
    have hchr : (!ext.chrootOk) = false := by rw [hc]; rfl
    simp only [TintProcessor.start, hchr, Bool.false_eq_true, if_false, hl,
      hcs, hdry, if_true, hfmt]
  · intro w
    rfl

/-- Witness for C5's amended statement: the empty-profile dry run
succeeds and reports the empty keep list. -/
theorem C5_dry_run_report_witness :
    tpDry.dry_run = true ∧ extTriv.chrootOk = true ∧ lockExists w0 = false ∧
    computeSets tpDry extTriv w0 = .ok ([], []) ∧
    ContentFormatter.format w0 [] = .ok () ∧
    TintProcessor.start tpDry extTriv w0 = (.ok ([], []), w0) := by
  have hcs : computeSets tpDry extTriv w0 = .ok ([], []) :=
    computeSets_emptyP true w0
  exact ⟨rfl, rfl, by decide, hcs, rfl,
    C5_dry_run_report.1 tpDry extTriv w0 [] [] rfl rfl (by decide) hcs rfl⟩

/-- Witness for C2 at concrete inputs: a marker-bearing root is rejected
untouched, and a successful apply-mode run follows with a failing second
run on its output world. -/
theorem C2_lock_guard_witness :
    (extTriv.chrootOk = true ∧ lockExists wLocked = true ∧
      TintProcessor.start tpDry extTriv wLocked = (.error .alreadyTinted, wLocked)) ∧
    (tpApply.dry_run = false ∧
      TintProcessor.start tpApply extTriv w0 = (.ok ([], []), wLocked) ∧
      TintProcessor.start tpApply extTriv wLocked = (.error .alreadyTinted, wLocked)) := by
  refine ⟨⟨rfl, by decide, C2_lock_guard.1 tpDry extTriv wLocked rfl (by decide)⟩,
    rfl, start_eval_first, ?_⟩
  exact C2_lock_guard.2 tpApply extTriv w0 ([], []) wLocked tpApply extTriv
    rfl rfl start_eval_first

/-- Witness for C3 at concrete inputs: a denied deletion is skipped, a
failed marker creation yields an error with no marker, and a successful
apply implies the creation oracle succeeded. -/
theorem C3_apply_changes_witness :
    (dDenyA p_a.comps = true ∧
      delPhase dDenyA w0 (p_a :: []) = delPhase dDenyA w0 []) ∧
    (Node.lookup [lockName] w0 = none ∧
      (∃ e, (apply_changes dDenyA false w0 []).1 = .error e) ∧
      Node.lookup [lockName] (apply_changes dDenyA false w0 []).2 = none) ∧
    (apply_changes (fun _ => false) true w0 [] = (.ok (), wLocked) ∧
      (true : Bool) = true) := by
  refine ⟨⟨by decide, C3_apply_changes.1 dDenyA w0 p_a [] (by decide)⟩,
    ⟨rfl, (C3_apply_changes.2.1 dDenyA w0 [] rfl).1,
      (C3_apply_changes.2.1 dDenyA w0 [] rfl).2⟩,
    apply_changes_empty, ?_⟩
  exact C3_apply_changes.2.2 (fun _ => false) true w0 [] () wLocked
    apply_changes_empty

/-- Witness for C6 at a concrete input: the dry run leaves the world
untouched. -/
theorem C6_dry_run_pure_witness :
    tpDry.dry_run = true ∧ (TintProcessor.start tpDry extTriv w0).2 = w0 :=
  ⟨rfl, C6_dry_run_pure tpDry extTriv w0 rfl⟩
